import Mathlib

/-!
Verification development for the MedXchange composition-resolution engine
(`src/main.py`).  Python strings are embedded as `List Char`; Python floats
that only ever hold exact decimal values (regex-parsed dosage numbers and
their /1000, *1000 conversions) are embedded as `ℚ`; Python sets of
canonical dosage-key strings are embedded as `Finset (List Char)`.
Regex operations are embedded as explicit scanners that follow the
leftmost-match, greedy-with-backtracking semantics of the concrete
patterns appearing in the source.
-/

/-- Embedding of Python `\s` (ASCII whitespace class used by `str.strip`,
`str.split()` and the `\s` regex class on the ASCII text this engine sees). -/
def pyIsSpace (c : Char) : Bool :=
  c = ' ' || c = '\t' || c = '\n' || c = '\x0d' || c = '\x0b' || c = '\x0c'

/-- Embedding of Python `\d' for ASCII text. -/
def pyIsDigit (c : Char) : Bool :=
  '0' ≤ c && c ≤ '9'

/-- Embedding of Python `\w` (regex word character) for ASCII text. -/
def pyIsWord (c : Char) : Bool :=
  ('a' ≤ c && c ≤ 'z') || ('A' ≤ c && c ≤ 'Z') || pyIsDigit c || c = '_'

/-- Embedding of Python `str.lower` on one character (ASCII range; the
engine's data is ASCII apart from `µ`, which `lower` leaves unchanged). -/
def pyToLower (c : Char) : Char :=
  if 65 ≤ c.toNat ∧ c.toNat ≤ 90 then Char.ofNat (c.toNat + 32) else c

/-- Embedding of Python `str.lower` on a string. -/
def lowerStr (l : List Char) : List Char :=
  l.map pyToLower

/-- Leading-whitespace removal, the left half of Python `str.strip`. -/
def stripL (l : List Char) : List Char :=
  l.dropWhile pyIsSpace

/-- Trailing-whitespace removal, the right half of Python `str.strip`. -/
def stripR (l : List Char) : List Char :=
  (l.reverse.dropWhile pyIsSpace).reverse

/-- Embedding of Python `str.strip`. -/
def stripStr (l : List Char) : List Char :=
  stripR (stripL l)

/-- Embedding of the Python substring test `pat in l` (`str.__contains__`). -/
def containsSub : List Char → List Char → Bool
  | l, pat =>
    pat.isPrefixOf l ||
      (match l with
       | [] => false
       | _ :: t => containsSub t pat)

/-- The six salt-form words stripped by `normalize_salt_name`
(`src/main.py` line 158). -/
def saltForms : List (List Char) :=
  ["sodium".data, "hydrochloride".data, "hcl".data, "sulphate".data,
   "sulfate".data, "chloride".data]

/-- Embedding of `re.sub(r'\s+(sodium|hydrochloride|hcl|sulphate|sulfate|chloride)$', '', s)`
from `normalize_salt_name`.  The anchored pattern has at most one match:
it fires exactly when the final whitespace-free segment of `s` is one of
the six words and is preceded by at least one whitespace character, and
it removes that segment together with the whole whitespace run before it. -/
def removeTrailingSaltForm (l : List Char) : List Char :=
  if (l.reverse.dropWhile (fun c => !pyIsSpace c)).takeWhile pyIsSpace ≠ [] ∧
      saltForms.contains (l.reverse.takeWhile (fun c => !pyIsSpace c)).reverse then
    ((l.reverse.dropWhile (fun c => !pyIsSpace c)).dropWhile pyIsSpace).reverse
  else l

/-- Embedding of `normalize_salt_name` (`src/main.py` lines 153-159):
lower-case, trim, then remove one trailing salt-form word. -/
def normalize_salt_name (l : List Char) : List Char :=
  removeTrailingSaltForm (stripStr (lowerStr l))

/-- Word-boundary test after a match that ended in a word character:
`\b` holds when the remaining text is empty or starts with a non-word char. -/
def boundaryAfter (rest : List Char) : Bool :=
  match rest with
  | [] => true
  | c :: _ => !pyIsWord c

/-- Single-position matcher for `\s*\d+\s*m?g\b` (the dosage-removal
pattern of `extract_all_salts`, `src/main.py` lines 132 and 143).
Returns the remaining text after the match.  The pattern is deterministic:
each starred piece can greedily take its maximal run, `m?` backtracks to
the empty branch only when `g\b` fails after `mg`, in which case the
alternative also fails because the text still starts with `m`. -/
def dosageSubMatchAt (l : List Char) : Option (List Char) :=
  let l1 := l.dropWhile pyIsSpace
  let ds := l1.takeWhile pyIsDigit
  if ds = [] then none
  else
    let l2 := (l1.dropWhile pyIsDigit).dropWhile pyIsSpace
    match l2 with
    | 'm' :: 'g' :: rest => if boundaryAfter rest then some rest else none
    | 'g' :: rest => if boundaryAfter rest then some rest else none
    | _ => none

/-- Fuel-driven scanner for `re.sub(r'\s*\d+\s*m?g\b', '', s)`:
leftmost matches are removed, other characters are kept. -/
def removeDosageGo : ℕ → List Char → List Char
  | 0, l => l
  | fuel + 1, l =>
    match l with
    | [] => []
    | c :: rest =>
      match dosageSubMatchAt l with
      | some rem => removeDosageGo fuel rem
      | none => c :: removeDosageGo fuel rest

/-- Embedding of `re.sub(r'\s*\d+\s*m?g\b', '', s)`. -/
def removeDosageSub (l : List Char) : List Char :=
  removeDosageGo (l.length + 1) l

/-- Single-position matcher for `\s*\([^)]*\)` (the parenthetical-removal
pattern of `extract_all_salts`).  `[^)]*` greedily runs to the first `)`,
which must then be present. -/
def parenSubMatchAt (l : List Char) : Option (List Char) :=
  let l1 := l.dropWhile pyIsSpace
  match l1 with
  | '(' :: r =>
    match r.dropWhile (fun c => c ≠ ')') with
    | ')' :: rest => some rest
    | _ => none
  | _ => none

/-- Fuel-driven scanner for `re.sub(r'\s*\([^)]*\)', '', s)`. -/
def removeParenGo : ℕ → List Char → List Char
  | 0, l => l
  | fuel + 1, l =>
    match l with
    | [] => []
    | c :: rest =>
      match parenSubMatchAt l with
      | some rem => removeParenGo fuel rem
      | none => c :: removeParenGo fuel rest

/-- Embedding of `re.sub(r'\s*\([^)]*\)', '', s)`. -/
def removeParenSub (l : List Char) : List Char :=
  removeParenGo (l.length + 1) l

/-- Embedding of Python `str.split()` (split on whitespace runs,
discarding empty fragments), written with an accumulator so recursion is
structural. -/
def splitWsAux : List Char → List Char → List (List Char)
  | [], acc => if acc.isEmpty then [] else [acc.reverse]
  | c :: t, acc =>
    if pyIsSpace c then
      if acc.isEmpty then splitWsAux t [] else acc.reverse :: splitWsAux t []
    else splitWsAux t (c :: acc)

/-- Embedding of Python `str.split()`. -/
def splitWs (l : List Char) : List (List Char) :=
  splitWsAux l []

/-- Fuel-driven scanner for `re.split(r'\band\b|[+/]', s)` used by
`count_salts_in_generic` (`src/main.py` line 215).  `prev` is the
character before the current position, for the `\b` tests; `acc` is the
current fragment, reversed. -/
def splitAndPSGo : ℕ → Option Char → List Char → List Char → List (List Char)
  | 0, _, acc, _ => [acc.reverse]
  | fuel + 1, prev, acc, l =>
    match l with
    | [] => [acc.reverse]
    | c :: rest =>
      if c = '+' ∨ c = '/' then acc.reverse :: splitAndPSGo fuel (some c) [] rest
      else
        match l with
        | 'a' :: 'n' :: 'd' :: rest2 =>
          if (match prev with | none => true | some p => !pyIsWord p) &&
              boundaryAfter rest2 then
            acc.reverse :: splitAndPSGo fuel (some 'd') [] rest2
          else splitAndPSGo fuel (some c) (c :: acc) rest
        | _ => splitAndPSGo fuel (some c) (c :: acc) rest

/-- Embedding of `re.split(r'\band\b|[+/]', s)`. -/
def splitAndPS (l : List Char) : List (List Char) :=
  splitAndPSGo (l.length + 1) none [] l

/-- Fuel-driven scanner for `re.split(r'[+/,]|\band\b', s, flags=re.IGNORECASE)`
used by the plain-text path of `extract_all_salts` (`src/main.py` line 140).
The input is not lower-cased there, so the word test is case-insensitive. -/
def splitPlainGo : ℕ → Option Char → List Char → List Char → List (List Char)
  | 0, _, acc, _ => [acc.reverse]
  | fuel + 1, prev, acc, l =>
    match l with
    | [] => [acc.reverse]
    | c :: rest =>
      if c = '+' ∨ c = '/' ∨ c = ',' then
        acc.reverse :: splitPlainGo fuel (some c) [] rest
      else
        match l with
        | c1 :: c2 :: c3 :: rest2 =>
          if pyToLower c1 = 'a' ∧ pyToLower c2 = 'n' ∧ pyToLower c3 = 'd' then
            if (match prev with | none => true | some p => !pyIsWord p) &&
                boundaryAfter rest2 then
              acc.reverse :: splitPlainGo fuel (some c3) [] rest2
            else splitPlainGo fuel (some c) (c :: acc) rest
          else splitPlainGo fuel (some c) (c :: acc) rest
        | _ => splitPlainGo fuel (some c) (c :: acc) rest

/-- Embedding of `re.split(r'[+/,]|\band\b', s, flags=re.IGNORECASE)`. -/
def splitPlain (l : List Char) : List (List Char) :=
  splitPlainGo (l.length + 1) none [] l

/-- Embedding of `re.match(r'^\d+\s*m?g$', p)` as a Boolean test:
digits, optional whitespace, optional `m`, then `g`, consuming all of `p`. -/
def isPureDosage (l : List Char) : Bool :=
  let ds := l.takeWhile pyIsDigit
  if ds = [] then false
  else
    match (l.dropWhile pyIsDigit).dropWhile pyIsSpace with
    | ['m', 'g'] => true
    | ['g'] => true
    | _ => false

/-- Embedding of `count_salts_in_generic` (`src/main.py` lines 211-217):
split the lower-cased name on `and`/`+`/`/`, strip fragments, and count
those that are non-empty and not a pure dosage expression. -/
def count_salts_in_generic (generic_name : List Char) : ℕ :=
  ((splitAndPS (lowerStr generic_name)).map stripStr).countP
    (fun p => p ≠ [] ∧ ¬ isPureDosage p)

/-- Cleanup applied to each salt fragment by `extract_all_salts`
(both the structured and the plain-text path): `strip`, `lower`,
remove dosage expressions, remove parentheticals. -/
def cleanFragment (l : List Char) : List Char :=
  removeParenSub (removeDosageSub (lowerStr (stripStr l)))

/-- Embedding of Python literal values as produced by `ast.literal_eval`:
strings, bytes, ints, floats (kept as exact decimal rationals), booleans,
`None`, lists, tuples, sets, dicts.  Outside the model (documented
deviations, none reachable from the judged claims' witness inputs):
complex literals, `Ellipsis`, underscore digit separators, `\N` named
escapes, lone-surrogate `\u` escapes (not representable in `Char`), and
resource exhaustion (`MemoryError`/`RecursionError`). -/
inductive PyVal where
  | pstr (s : List Char) : PyVal
  | pbytes (s : List Char) : PyVal
  | pint (n : Int) : PyVal
  | pfloat (q : ℚ) : PyVal
  | pbool (b : Bool) : PyVal
  | pnone : PyVal
  | plist (l : List PyVal) : PyVal
  | ptuple (l : List PyVal) : PyVal
  | pset (l : List PyVal) : PyVal
  | pdict (l : List (PyVal × PyVal)) : PyVal

/-- Numeric value of a digit string. -/
def natOfDigits (l : List Char) : ℕ :=
  l.foldl (fun a c => a * 10 + (c.toNat - 48)) 0

/-- Hexadecimal digit test. -/
def pyIsHexDigit (c : Char) : Bool :=
  pyIsDigit c || ('a' ≤ c && c ≤ 'f') || ('A' ≤ c && c ≤ 'F')

/-- Value of one hexadecimal digit. -/
def hexDigitVal (c : Char) : ℕ :=
  if pyIsDigit c then c.toNat - 48
  else if 'a' ≤ c && c ≤ 'f' then c.toNat - 87
  else c.toNat - 55

/-- Numeric value of a hexadecimal digit string. -/
def natOfHexDigits (l : List Char) : ℕ :=
  l.foldl (fun a c => a * 16 + hexDigitVal c) 0

/-- Octal digit test. -/
def pyIsOctDigit (c : Char) : Bool :=
  '0' ≤ c && c ≤ '7'

/-- Numeric value of an octal digit string. -/
def natOfOctDigits (l : List Char) : ℕ :=
  l.foldl (fun a c => a * 8 + (c.toNat - 48)) 0

/-- Binary digit test. -/
def pyIsBinDigit (c : Char) : Bool :=
  c = '0' || c = '1'

/-- Numeric value of a binary digit string. -/
def natOfBinDigits (l : List Char) : ℕ :=
  l.foldl (fun a c => a * 2 + (c.toNat - 48)) 0

/-- String-literal opener: a quote, optionally preceded by a prefix
`b`/`B`, `r`/`R`, `u`/`U`, or a two-letter bytes-raw combination, as the
Python tokenizer accepts.  Returns (is-bytes, is-raw, quote character,
text after the quote). -/
def strPrefixAt : List Char → Option (Bool × Bool × Char × List Char)
  | [] => none
  | c :: rest =>
    if c = '\'' ∨ c = '"' then some (false, false, c, rest)
    else
      match rest with
      | [] => none
      | c2 :: rest2 =>
        if c2 = '\'' ∨ c2 = '"' then
          if c = 'b' ∨ c = 'B' then some (true, false, c2, rest2)
          else if c = 'r' ∨ c = 'R' then some (false, true, c2, rest2)
          else if c = 'u' ∨ c = 'U' then some (false, false, c2, rest2)
          else none
        else
          match rest2 with
          | [] => none
          | c3 :: rest3 =>
            if c3 = '\'' ∨ c3 = '"' then
              if ((c = 'b' ∨ c = 'B') ∧ (c2 = 'r' ∨ c2 = 'R')) ∨
                  ((c = 'r' ∨ c = 'R') ∧ (c2 = 'b' ∨ c2 = 'B')) then
                some (true, true, c3, rest3)
              else none
            else none

/-- One escape sequence after a backslash in a non-raw string or bytes
literal: recognized single-character escapes, line continuation, octal
(up to three digits), `\xhh` (exactly two hex digits, else a syntax
error), and for strings `\uhhhh`/`\Uhhhhhhhh` (with the exact digit
count and a valid code point, else a syntax error); in bytes literals
`\u`, `\U` and `\N` are not escapes and are kept literally.  An
unrecognized escape keeps the backslash and the character, as Python
does.  Returns the decoded characters and the remaining text. -/
def pvEscape (ib : Bool) : List Char → Option (List Char × List Char)
  | [] => none
  | c :: rest =>
    if c = '\n' then some ([], rest)
    else if c = '\\' then some (['\\'], rest)
    else if c = '\'' then some (['\''], rest)
    else if c = '"' then some (['"'], rest)
    else if c = 'n' then some (['\n'], rest)
    else if c = 't' then some (['\t'], rest)
    else if c = 'r' then some (['\x0d'], rest)
    else if c = 'a' then some (['\x07'], rest)
    else if c = 'b' then some (['\x08'], rest)
    else if c = 'f' then some (['\x0c'], rest)
    else if c = 'v' then some (['\x0b'], rest)
    else if c = 'x' then
      match rest with
      | h1 :: h2 :: rest2 =>
        if pyIsHexDigit h1 ∧ pyIsHexDigit h2 then
          some ([Char.ofNat (hexDigitVal h1 * 16 + hexDigitVal h2)], rest2)
        else none
      | _ => none
    else if pyIsOctDigit c then
      match rest with
      | c2 :: c3 :: rest2 =>
        if pyIsOctDigit c2 ∧ pyIsOctDigit c3 then
          some ([Char.ofNat (natOfOctDigits [c, c2, c3])], rest2)
        else if pyIsOctDigit c2 then
          some ([Char.ofNat (natOfOctDigits [c, c2])], c3 :: rest2)
        else some ([Char.ofNat (natOfOctDigits [c])], c2 :: c3 :: rest2)
      | [c2] =>
        if pyIsOctDigit c2 then some ([Char.ofNat (natOfOctDigits [c, c2])], [])
        else some ([Char.ofNat (natOfOctDigits [c])], [c2])
      | [] => some ([Char.ofNat (natOfOctDigits [c])], [])
    else if c = 'u' ∧ ¬ ib then
      match rest with
      | h1 :: h2 :: h3 :: h4 :: rest2 =>
        if pyIsHexDigit h1 ∧ pyIsHexDigit h2 ∧ pyIsHexDigit h3 ∧ pyIsHexDigit h4 then
          if (natOfHexDigits [h1, h2, h3, h4]).isValidChar then
            some ([Char.ofNat (natOfHexDigits [h1, h2, h3, h4])], rest2)
          else none
        else none
      | _ => none
    else if c = 'U' ∧ ¬ ib then
      match rest with
      | h1 :: h2 :: h3 :: h4 :: h5 :: h6 :: h7 :: h8 :: rest2 =>
        if pyIsHexDigit h1 ∧ pyIsHexDigit h2 ∧ pyIsHexDigit h3 ∧ pyIsHexDigit h4 ∧
            pyIsHexDigit h5 ∧ pyIsHexDigit h6 ∧ pyIsHexDigit h7 ∧ pyIsHexDigit h8 then
          if (natOfHexDigits [h1, h2, h3, h4, h5, h6, h7, h8]).isValidChar then
            some ([Char.ofNat (natOfHexDigits [h1, h2, h3, h4, h5, h6, h7, h8])], rest2)
          else none
        else none
      | _ => none
    else if c = 'N' ∧ ¬ ib then none
    else some (['\\', c], rest)

/-- Finished string or bytes literal from the reversed accumulator. -/
def mkStrVal (ib : Bool) (acc rest : List Char) : Option (PyVal × List Char) :=
  some (if ib then (PyVal.pbytes acc.reverse, rest) else (PyVal.pstr acc.reverse, rest))

/-- Optional exponent part of a float literal; when absent, the mantissa
stands by itself (as a float when a dot was present, else back to the
integer path). -/
def pvExponent (base : ℚ) (isFloat : Bool) (l : List Char) : Option (PyVal × List Char) :=
  match l with
  | c :: r =>
    if c = 'e' ∨ c = 'E' then
      match r with
      | s :: r2 =>
        if s = '+' ∨ s = '-' then
          let es := r2.takeWhile pyIsDigit
          if es = [] then none
          else
            some (PyVal.pfloat (if s = '-' then base / (10 : ℚ) ^ natOfDigits es
              else base * (10 : ℚ) ^ natOfDigits es), r2.dropWhile pyIsDigit)
        else
          let es := r.takeWhile pyIsDigit
          if es = [] then none
          else some (PyVal.pfloat (base * (10 : ℚ) ^ natOfDigits es), r.dropWhile pyIsDigit)
      | [] => none
    else if isFloat then some (PyVal.pfloat base, l) else none
  | [] => if isFloat then some (PyVal.pfloat base, l) else none

/-- Decimal number at the current position:
`\d*(\.\d*)?([eE][+-]?\d+)?` with at least one mantissa digit, Python's
leading-zero restriction on plain integers (`007` is a syntax error,
`000` is not), and float-typed results for any form with a dot or an
exponent. -/
def pvDecNum (l : List Char) : Option (PyVal × List Char) :=
  let ds := l.takeWhile pyIsDigit
  match l.dropWhile pyIsDigit with
  | '.' :: r =>
    let fs := r.takeWhile pyIsDigit
    if ds = [] ∧ fs = [] then none
    else
      pvExponent ((natOfDigits ds : ℚ) + (natOfDigits fs : ℚ) / (10 : ℚ) ^ fs.length)
        true (r.dropWhile pyIsDigit)
  | l1 =>
    if ds = [] then none
    else
      match pvExponent (natOfDigits ds : ℚ) false l1 with
      | some res => some res
      | none =>
        if ds.head? = some '0' ∧ ds.any (fun c => c ≠ '0') then none
        else some (PyVal.pint (natOfDigits ds : ℤ), l1)

/-- Number literal at the current position: hexadecimal, octal and
binary integers, or a decimal literal. -/
def pvNum (l : List Char) : Option (PyVal × List Char) :=
  match l with
  | '0' :: c :: rest =>
    if c = 'x' ∨ c = 'X' then
      let hs := rest.takeWhile pyIsHexDigit
      if hs = [] then none
      else some (PyVal.pint (natOfHexDigits hs : ℤ), rest.dropWhile pyIsHexDigit)
    else if c = 'o' ∨ c = 'O' then
      let hs := rest.takeWhile pyIsOctDigit
      if hs = [] then none
      else some (PyVal.pint (natOfOctDigits hs : ℤ), rest.dropWhile pyIsOctDigit)
    else if c = 'b' ∨ c = 'B' then
      let hs := rest.takeWhile pyIsBinDigit
      if hs = [] then none
      else some (PyVal.pint (natOfBinDigits hs : ℤ), rest.dropWhile pyIsBinDigit)
    else pvDecNum l
  | _ => pvDecNum l

mutual

/-- Fuel-driven recursive-descent model of `ast.literal_eval`'s syntax
phase, returning the parsed value and the remaining input, or `none` for
inputs the compiler rejects with a `SyntaxError`/`ValueError` (both
caught by the `except` tuple of `extract_all_salts`). -/
def pvParse : ℕ → List Char → Option (PyVal × List Char)
  | 0, _ => none
  | fuel + 1, l =>
    match l.dropWhile pyIsSpace with
    | [] => none
    | 'N' :: 'o' :: 'n' :: 'e' :: rest => some (PyVal.pnone, rest)
    | 'T' :: 'r' :: 'u' :: 'e' :: rest => some (PyVal.pbool true, rest)
    | 'F' :: 'a' :: 'l' :: 's' :: 'e' :: rest => some (PyVal.pbool false, rest)
    | '[' :: rest => pvList fuel (rest.dropWhile pyIsSpace) []
    | '{' :: rest => pvBrace fuel (rest.dropWhile pyIsSpace)
    | '(' :: rest => pvParen fuel (rest.dropWhile pyIsSpace)
    | '-' :: rest =>
      (match pvSignedNum fuel (rest.dropWhile pyIsSpace) with
       | some (PyVal.pint n, rem) => some (PyVal.pint (-n), rem)
       | some (PyVal.pfloat q, rem) => some (PyVal.pfloat (-q), rem)
       | _ => none)
    | '+' :: rest =>
      (match pvSignedNum fuel (rest.dropWhile pyIsSpace) with
       | some (PyVal.pint n, rem) => some (PyVal.pint n, rem)
       | some (PyVal.pfloat q, rem) => some (PyVal.pfloat q, rem)
       | _ => none)
    | c :: rest =>
      match strPrefixAt (c :: rest) with
      | some (ib, ir, q, rest2) =>
        (match pvStrStart fuel ib ir q rest2 with
         | none => none
         | some (v, rem) => pvStrConcat fuel v rem)
      | none => if pyIsDigit c ∨ c = '.' then pvNum (c :: rest) else none

/-- Entry into a string or bytes literal after its opening quote:
detects the triple-quoted form. -/
def pvStrStart : ℕ → Bool → Bool → Char → List Char → Option (PyVal × List Char)
  | 0, _, _, _, _ => none
  | fuel + 1, ib, ir, q, rest2 =>
    match rest2 with
    | q1 :: q2 :: rest3 =>
      if q1 = q ∧ q2 = q then pvStrLoop fuel ib ir q true rest3 []
      else pvStrLoop fuel ib ir q false rest2 []
    | _ => pvStrLoop fuel ib ir q false rest2 []

/-- Implicit concatenation of adjacent string (or adjacent bytes)
literals, as in `"a" "b"`; mixing bytes and non-bytes literals is a
syntax error. -/
def pvStrConcat : ℕ → PyVal → List Char → Option (PyVal × List Char)
  | 0, _, _ => none
  | fuel + 1, v, rem =>
    match strPrefixAt (rem.dropWhile pyIsSpace) with
    | none => some (v, rem)
    | some (ib, ir, q, rest2) =>
      match pvStrStart fuel ib ir q rest2 with
      | none => none
      | some (v2, rem2) =>
        match v, v2 with
        | PyVal.pstr a, PyVal.pstr b => pvStrConcat fuel (PyVal.pstr (a ++ b)) rem2
        | PyVal.pbytes a, PyVal.pbytes b => pvStrConcat fuel (PyVal.pbytes (a ++ b)) rem2
        | _, _ => none

/-- List-literal loop: elements separated by `,`, closed by `]`;
a trailing comma is allowed, as in Python. -/
def pvList : ℕ → List Char → List PyVal → Option (PyVal × List Char)
  | 0, _, _ => none
  | fuel + 1, l, acc =>
    match l with
    | ']' :: rest => some (PyVal.plist acc.reverse, rest)
    | _ =>
      match pvParse fuel l with
      | none => none
      | some (v, rem) =>
        match rem.dropWhile pyIsSpace with
        | ',' :: rem2 => pvList fuel (rem2.dropWhile pyIsSpace) (v :: acc)
        | ']' :: rem2 => some (PyVal.plist (v :: acc).reverse, rem2)
        | _ => none

/-- After `(`: the empty tuple, a parenthesized expression (no trailing
comma — yields the bare value, not a tuple), or a tuple. -/
def pvParen : ℕ → List Char → Option (PyVal × List Char)
  | 0, _ => none
  | fuel + 1, l =>
    match l with
    | ')' :: rest => some (PyVal.ptuple [], rest)
    | _ =>
      match pvParse fuel l with
      | none => none
      | some (v, rem) =>
        match rem.dropWhile pyIsSpace with
        | ')' :: rem2 => some (v, rem2)
        | ',' :: rem2 => pvTupleLoop fuel (rem2.dropWhile pyIsSpace) [v]
        | _ => none

/-- Tuple-literal loop after the first `element ,`. -/
def pvTupleLoop : ℕ → List Char → List PyVal → Option (PyVal × List Char)
  | 0, _, _ => none
  | fuel + 1, l, acc =>
    match l with
    | ')' :: rest => some (PyVal.ptuple acc.reverse, rest)
    | _ =>
      match pvParse fuel l with
      | none => none
      | some (v, rem) =>
        match rem.dropWhile pyIsSpace with
        | ',' :: rem2 => pvTupleLoop fuel (rem2.dropWhile pyIsSpace) (v :: acc)
        | ')' :: rem2 => some (PyVal.ptuple (v :: acc).reverse, rem2)
        | _ => none

/-- After `{`: the empty dict, or the first element decides between the
dict form (`key : value`) and the set form. -/
def pvBrace : ℕ → List Char → Option (PyVal × List Char)
  | 0, _ => none
  | fuel + 1, l =>
    match l with
    | '}' :: rest => some (PyVal.pdict [], rest)
    | _ =>
      match pvParse fuel l with
      | none => none
      | some (k, rem) =>
        match rem.dropWhile pyIsSpace with
        | ':' :: rem2 =>
          (match pvParse fuel rem2 with
           | none => none
           | some (v, rem3) =>
             match rem3.dropWhile pyIsSpace with
             | ',' :: rem4 => pvDict fuel (rem4.dropWhile pyIsSpace) [(k, v)]
             | '}' :: rem4 => some (PyVal.pdict [(k, v)], rem4)
             | _ => none)
        | ',' :: rem2 => pvSetLoop fuel (rem2.dropWhile pyIsSpace) [k]
        | '}' :: rem2 => some (PyVal.pset [k], rem2)
        | _ => none

/-- Dict-literal loop: further `key : value` pairs separated by `,`,
closed by `}`; a trailing comma is allowed. -/
def pvDict : ℕ → List Char → List (PyVal × PyVal) → Option (PyVal × List Char)
  | 0, _, _ => none
  | fuel + 1, l, acc =>
    match l with
    | '}' :: rest => some (PyVal.pdict acc.reverse, rest)
    | _ =>
      match pvParse fuel l with
      | none => none
      | some (k, rem) =>
        match rem.dropWhile pyIsSpace with
        | ':' :: rem2 =>
          (match pvParse fuel rem2 with
           | none => none
           | some (v, rem3) =>
             match rem3.dropWhile pyIsSpace with
             | ',' :: rem4 => pvDict fuel (rem4.dropWhile pyIsSpace) ((k, v) :: acc)
             | '}' :: rem4 => some (PyVal.pdict ((k, v) :: acc).reverse, rem4)
             | _ => none)
        | _ => none

/-- Set-literal loop after the first `element ,`. -/
def pvSetLoop : ℕ → List Char → List PyVal → Option (PyVal × List Char)
  | 0, _, _ => none
  | fuel + 1, l, acc =>
    match l with
    | '}' :: rest => some (PyVal.pset acc.reverse, rest)
    | _ =>
      match pvParse fuel l with
      | none => none
      | some (v, rem) =>
        match rem.dropWhile pyIsSpace with
        | ',' :: rem2 => pvSetLoop fuel (rem2.dropWhile pyIsSpace) (v :: acc)
        | '}' :: rem2 => some (PyVal.pset (v :: acc).reverse, rem2)
        | _ => none

/-- Operand of a unary sign: `ast.literal_eval` applies a sign only to a
numeric constant, possibly parenthesized, never to a nested signed
expression. -/
def pvSignedNum : ℕ → List Char → Option (PyVal × List Char)
  | 0, _ => none
  | fuel + 1, l =>
    match l with
    | '(' :: rest =>
      (match pvSignedNum fuel (rest.dropWhile pyIsSpace) with
       | none => none
       | some (v, rem) =>
         match rem.dropWhile pyIsSpace with
         | ')' :: rem2 => some (v, rem2)
         | _ => none)
    | _ => pvNum l

/-- String/bytes content scanner: arguments are bytes-mode, raw-mode,
quote character, triple-quote mode, remaining text, and the reversed
accumulator.  A bare newline ends a single-line literal with a syntax
error; in raw mode a backslash keeps itself and the next character (so a
backslashed quote does not close the literal); otherwise escapes go
through `pvEscape`; a non-ASCII character in a bytes literal is a syntax
error. -/
def pvStrLoop : ℕ → Bool → Bool → Char → Bool → List Char → List Char →
    Option (PyVal × List Char)
  | 0, _, _, _, _, _, _ => none
  | fuel + 1, ib, ir, q, tq, l, acc =>
    match l with
    | [] => none
    | c :: rest =>
      if c = q ∧ ¬ tq then mkStrVal ib acc rest
      else if c = q ∧ tq then
        (match rest with
         | q1 :: q2 :: rest2 =>
           if q1 = q ∧ q2 = q then mkStrVal ib acc rest2
           else pvStrLoop fuel ib ir q tq rest (c :: acc)
         | _ => pvStrLoop fuel ib ir q tq rest (c :: acc))
      else if c = '\n' ∧ ¬ tq then none
      else if c = '\\' then
        if ir then
          (match rest with
           | [] => none
           | c2 :: rest2 =>
             if ib ∧ 128 ≤ c2.toNat then none
             else pvStrLoop fuel ib ir q tq rest2 (c2 :: '\\' :: acc))
        else
          (match pvEscape ib rest with
           | none => none
           | some (chars, rest2) => pvStrLoop fuel ib ir q tq rest2 (chars.reverse ++ acc))
      else if ib ∧ 128 ≤ c.toNat then none
      else pvStrLoop fuel ib ir q tq rest (c :: acc)

end

/-- Top-level tuple continuation: `ast.literal_eval` accepts a bare
comma-separated tuple at top level (`[1], [2]` is a pair of lists). -/
def pvTopTupleLoop : ℕ → List Char → List PyVal → Option PyVal
  | 0, _, _ => none
  | fuel + 1, l, acc =>
    match l with
    | [] => some (PyVal.ptuple acc.reverse)
    | _ =>
      match pvParse fuel l with
      | none => none
      | some (v, rem) =>
        match rem.dropWhile pyIsSpace with
        | [] => some (PyVal.ptuple (v :: acc).reverse)
        | ',' :: r2 => pvTopTupleLoop fuel (r2.dropWhile pyIsSpace) (v :: acc)
        | _ => none

/-- Whole-input parse of `ast.literal_eval`'s syntax phase: one
expression, or a bare top-level tuple, consuming all of the input. -/
def pvTop (fuel : ℕ) (l : List Char) : Option PyVal :=
  match pvParse fuel l with
  | none => none
  | some (v, rem) =>
    match rem.dropWhile pyIsSpace with
    | [] => some v
    | ',' :: r2 => pvTopTupleLoop fuel (r2.dropWhile pyIsSpace) [v]
    | _ => none

mutual

/-- Python hashability of a literal value: lists, dicts and sets are
unhashable; a tuple is hashable when all its elements are. -/
def pvHashable : PyVal → Bool
  | PyVal.plist _ => false
  | PyVal.pdict _ => false
  | PyVal.pset _ => false
  | PyVal.ptuple l => pvListHashable l
  | _ => true

/-- Hashability of every element of a list of values. -/
def pvListHashable : List PyVal → Bool
  | [] => true
  | v :: t => pvHashable v && pvListHashable t

end

mutual

/-- Conversion phase of `ast.literal_eval`: building a parsed `set`, or a
`dict` with some key, from an unhashable value raises `TypeError` — which
the `except` tuple of `extract_all_salts` does not catch.  `pvValidate`
is true exactly when conversion raises nothing.  (Inside a set, and for
dict keys, hashability already rules out all containers but tuples of
hashables, so no deeper check is needed there.) -/
def pvValidate : PyVal → Bool
  | PyVal.plist l => pvListValidate l
  | PyVal.ptuple l => pvListValidate l
  | PyVal.pset l => pvListHashable l
  | PyVal.pdict kvs => pvKVValidate kvs
  | _ => true

/-- Validity of every element of a list of values. -/
def pvListValidate : List PyVal → Bool
  | [] => true
  | v :: t => pvValidate v && pvListValidate t

/-- Validity of a dict's pairs: hashable keys, valid values. -/
def pvKVValidate : List (PyVal × PyVal) → Bool
  | [] => true
  | kv :: t => pvHashable kv.1 && pvValidate kv.2 && pvKVValidate t

end

/-- Python dict lookup `item['name']` for a string key: only a string key
with the same characters compares equal to `'name'` (bytes and other
values compare unequal); with duplicate literal keys the later pair wins,
so look from the right. -/
def dictLookup (kvs : List (PyVal × PyVal)) (key : List Char) : Option PyVal :=
  match kvs.reverse.find?
      (fun kv => match kv.1 with | PyVal.pstr s => s = key | _ => false) with
  | some kv => some kv.2
  | none => none

/-- Control-flow outcome of the structured `try` block of
`extract_all_salts`: completed with no exception; an exception caught by
the `except (ValueError, SyntaxError, AttributeError, KeyError)` tuple;
or a `TypeError`, which that tuple does not catch, propagating to the
caller. -/
inductive PyFlow where
  | ok : PyFlow
  | caught : PyFlow
  | typeError : PyFlow
deriving DecidableEq, Repr

/-- Loop body of the structured branch of `extract_all_salts`
(`src/main.py` lines 129-135).  An item that is not a dict, or a dict
without a `name` key, is skipped silently.  A string `name` is cleaned
and appended.  A bytes `name` passes `.strip().lower()` but then
`re.sub` with a string pattern raises `TypeError`, which the `except`
tuple does not catch — the exception propagates.  Any other `name`
value raises `AttributeError` at `.strip()`, which is caught and aborts
the loop with the salts gathered so far. -/
def procItems : List PyVal → List (List Char) × PyFlow
  | [] => ([], PyFlow.ok)
  | item :: rest =>
    match item with
    | PyVal.pdict kvs =>
      (match dictLookup kvs "name".data with
       | some (PyVal.pstr s) =>
         let cleaned := cleanFragment s
         let tl := procItems rest
         (if cleaned ≠ [] then stripStr cleaned :: tl.1 else tl.1, tl.2)
       | some (PyVal.pbytes _) => ([], PyFlow.typeError)
       | some _ => ([], PyFlow.caught)
       | none => procItems rest)
    | _ => procItems rest

/-- Result of the whole `try` block of `extract_all_salts` on input `raw`
(already `none`-replaced): the salts built by the structured branch and
the control flow of the block.  A failed or incomplete parse is a
`ValueError`/`SyntaxError` (caught, salts empty); an unhashable set
member or dict key is an uncaught `TypeError`; a parsed non-list value
raises nothing and leaves the salts empty. -/
def structuredSalts (raw : List Char) : List (List Char) × PyFlow :=
  match pvTop (raw.length * 2 + 16) raw with
  | none => ([], PyFlow.caught)
  | some v =>
    if ¬ pvValidate v then ([], PyFlow.typeError)
    else
      match v with
      | PyVal.plist items => procItems items
      | _ => ([], PyFlow.ok)

/-- Embedding of `s.replace("none", "None")` (`src/main.py` line 123):
left-to-right non-overlapping replacement. -/
def replaceNoneGo : ℕ → List Char → List Char
  | 0, l => l
  | fuel + 1, l =>
    match l with
    | [] => []
    | c :: rest =>
      if "none".data.isPrefixOf l then "None".data ++ replaceNoneGo fuel (l.drop 4)
      else c :: replaceNoneGo fuel rest

/-- Embedding of `s.replace("none", "None")`. -/
def replaceNone (l : List Char) : List Char :=
  replaceNoneGo (l.length + 1) l

/-- The structured path of `extract_all_salts` on the original input:
only attempted when the stripped, `none`-replaced text starts with `[`.
On a `typeError` flow Python propagates the exception and the function
returns nothing; the salts component is then a model artifact, and the
theorems about `extract_all_salts` results exclude that flow. -/
def structuredPart (s : List Char) : List (List Char) × PyFlow :=
  let raw := replaceNone s
  if "[".data.isPrefixOf (stripStr raw) then structuredSalts raw else ([], PyFlow.ok)

/-- The plain-text path of `extract_all_salts` (`src/main.py` lines
139-146): split on `+`/`/`/`,`/word `and`, clean each fragment, skip
fragments that are empty or equal to `none`. -/
def plainSalts (raw : List Char) : List (List Char) :=
  (splitPlain raw).foldr
    (fun part acc =>
      let clean := cleanFragment part
      if clean ≠ [] ∧ clean ≠ "none".data then stripStr clean :: acc else acc)
    []

/-- Embedding of `extract_all_salts` (`src/main.py` lines 114-148). -/
def extract_all_salts (s : List Char) : List (List Char) :=
  if s = [] then []
  else
    let st := (structuredPart s).1
    if st ≠ [] then st else plainSalts (replaceNone s)

/-- Unit-alternation step of the dosage regex
`(\d+(?:\.\d+)?)\s*(mg|g|mcg|µg)` (`src/main.py` line 170): skip `\s*`,
then try the unit alternatives in the pattern's order. -/
def dosageUnitAt (v : ℚ) (l : List Char) : Option (ℚ × List Char × List Char) :=
  let l3 := l.dropWhile pyIsSpace
  if "mg".data.isPrefixOf l3 then some (v, "mg".data, l3.drop 2)
  else if "g".data.isPrefixOf l3 then some (v, "g".data, l3.drop 1)
  else if "mcg".data.isPrefixOf l3 then some (v, "mcg".data, l3.drop 3)
  else if "µg".data.isPrefixOf l3 then some (v, "µg".data, l3.drop 2)
  else none

/-- Single-position matcher for `(\d+(?:\.\d+)?)\s*(mg|g|mcg|µg)`:
greedy digits, an optional fractional part that is dropped again if no
unit follows it, then the unit.  Returns the numeric value (exact, as a
rational), the matched unit token, and the remaining text. -/
def dosageMatchAt (l : List Char) : Option (ℚ × List Char × List Char) :=
  let ds := l.takeWhile pyIsDigit
  if ds = [] then none
  else
    let intVal : ℚ := (natOfDigits ds : ℚ)
    let l1 := l.dropWhile pyIsDigit
    match l1 with
    | '.' :: l2 =>
      let fs := l2.takeWhile pyIsDigit
      if fs = [] then dosageUnitAt intVal l1
      else
        match dosageUnitAt (intVal + (natOfDigits fs : ℚ) / (10 : ℚ) ^ fs.length)
            (l2.dropWhile pyIsDigit) with
        | some r => some r
        | none => dosageUnitAt intVal l1
    | _ => dosageUnitAt intVal l1

/-- Fuel-driven scanner for `re.findall` with the dosage pattern:
non-overlapping leftmost matches, resuming after each match. -/
def findDosagesGo : ℕ → List Char → List (ℚ × List Char)
  | 0, _ => []
  | fuel + 1, l =>
    match l with
    | [] => []
    | _ :: rest =>
      match dosageMatchAt l with
      | some (v, u, rem) => (v, u) :: findDosagesGo fuel rem
      | none => findDosagesGo fuel rest

/-- Unit conversion of one `findall` match, mirroring the
`if unit in ['mcg', 'µg'] / elif unit == 'g' / else` chain of
`extract_dosages` (`src/main.py` lines 171-177). -/
def convertDosage (p : ℚ × List Char) : ℚ × List Char :=
  if p.2 = "mcg".data ∨ p.2 = "µg".data then (p.1 / 1000, "mg".data)
  else if p.2 = "g".data then (p.1 * 1000, "mg".data)
  else (p.1, "mg".data)

/-- Embedding of `extract_dosages` (`src/main.py` lines 164-178): scan the
lower-cased text for strength expressions and convert each to milligrams. -/
def extract_dosages (text : List Char) : List (ℚ × List Char) :=
  (findDosagesGo ((lowerStr text).length + 1) (lowerStr text)).map convertDosage

/-- Decimal digits of a natural number. -/
def natDigits (n : ℕ) : List Char :=
  (Nat.repr n).data

/-- Smallest exponent `k` with `den ∣ 10 ^ k`, searched up to 30; every
denominator reachable from the dosage regex (a power of ten, divided or
multiplied by 1000) is of the form `2^a * 5^b` with small exponents. -/
def decExponent (den : ℕ) : ℕ :=
  ((List.range 31).find? (fun k => 10 ^ k % den = 0)).getD 0

/-- Model of Python `str(float)` (equivalently `f"{v}"`) for the exact
decimal rationals produced by `extract_dosages`: integers render with a
trailing `.0`; other values render with their shortest exact decimal
expansion, which is what `repr` of a float shows for these magnitudes. -/
def ratRepr (q : ℚ) : List Char :=
  let sign : List Char := if q < 0 then ['-'] else []
  let n := q.num.natAbs
  if q.den = 1 then sign ++ natDigits n ++ ".0".data
  else
    let k := decExponent q.den
    let scaled := n * (10 ^ k / q.den)
    let frac := natDigits (scaled % 10 ^ k)
    sign ++ natDigits (scaled / 10 ^ k) ++ ".".data ++
      List.replicate (k - frac.length) '0' ++ frac

/-- Canonical dosage key `f"{v}{u}"` used for all dosage-set comparisons
(`src/main.py` lines 196-197, 238, 259). -/
def dosageKey (p : ℚ × List Char) : List Char :=
  ratRepr p.1 ++ p.2

/-- Canonical keys of a dosage list. -/
def dosageKeys (l : List (ℚ × List Char)) : List (List Char) :=
  l.map dosageKey

/-- Embedding of the Python set of canonical keys. -/
def dosageKeySet (l : List (ℚ × List Char)) : Finset (List Char) :=
  (dosageKeys l).toFinset

/-- Lexicographic (code-point) string comparison, the order Python's
`sorted` uses on `str`. -/
def lexLeb : List Char → List Char → Bool
  | [], _ => true
  | _ :: _, [] => false
  | a :: as, b :: bs =>
    if a < b then true else if b < a then false else lexLeb as bs

/-- Insertion into a sorted list. -/
def insertLe {α : Type} (le : α → α → Bool) (x : α) : List α → List α
  | [] => [x]
  | y :: ys => if le x y then x :: y :: ys else y :: insertLe le x ys

/-- Insertion sort with a Boolean comparison. -/
def insSort {α : Type} (le : α → α → Bool) : List α → List α
  | [] => []
  | x :: xs => insertLe le x (insSort le xs)

/-- Embedding of `" + ".join(...)`. -/
def joinPlus : List (List Char) → List Char
  | [] => []
  | [x] => x
  | x :: y :: rest => x ++ " + ".data ++ joinPlus (y :: rest)

/-- Embedding of `sorted(set_of_keys)`: the distinct canonical keys in
Python's string order (lexicographic by code point). -/
def sortedKeys (l : List (ℚ × List Char)) : List (List Char) :=
  insSort lexLeb (dosageKeys l).dedup

/-- The warning text assembled by `has_dosage_mismatch`
(`src/main.py` line 204). -/
def warnMsg (brandStr genericStr : List Char) : List Char :=
  "⚠️ Note: Brand dosage (".data ++ brandStr ++
    ") differs from generic (".data ++ genericStr ++
    "). Consult your doctor before switching.".data

/-- Embedding of `has_dosage_mismatch` (`src/main.py` lines 180-206). -/
def has_dosage_mismatch (brand_composition brand_name generic_name : List Char) :
    Bool × List Char :=
  let brand_dosages := extract_dosages (brand_composition ++ " ".data ++ brand_name)
  let generic_dosages := extract_dosages generic_name
  if brand_dosages = [] ∨ generic_dosages = [] then (false, [])
  else if dosageKeySet brand_dosages ≠ dosageKeySet generic_dosages then
    (true, warnMsg (joinPlus (sortedKeys brand_dosages))
      (joinPlus (sortedKeys generic_dosages)))
  else (false, [])

/-- Per-salt match test of `find_best_gov_match` (`src/main.py` line 252):
the normalized salt is a substring of the lower-cased generic name, or of
the normalization of one of its whitespace-delimited tokens. -/
def saltCond (nameLower salt : List Char) : Bool :=
  let ns := normalize_salt_name salt
  containsSub nameLower ns ||
    (splitWs nameLower).any (fun part => containsSub (normalize_salt_name part) ns)

/-- Salt match score of `find_best_gov_match` (`src/main.py` lines
249-253): one point per target salt passing `saltCond`. -/
def matchScore (salts : List (List Char)) (nameLower : List Char) : ℕ :=
  salts.countP (fun s => saltCond nameLower s)

/-- The whole-name-only variant of the scoring, for comparison with the
spec sentence behind C10: the per-token branch of the disjunction is
dropped and only the whole-name substring test remains. -/
def matchScoreWholeNameOnly (salts : List (List Char)) (nameLower : List Char) : ℕ :=
  salts.countP (fun s => containsSub nameLower (normalize_salt_name s))

/-- A `jan_aushadhi` record as the matcher sees it (`src/main.py`
lines 37-41). -/
structure JanRec where
  generic_name : List Char
  price : ℚ
deriving DecidableEq, Repr

/-- Loop of `find_best_gov_match` (`src/main.py` lines 240-269), with the
running `best_match` and `max_match_score` made explicit. -/
def govLoop (salts : List (List Char)) (targetSet : Finset (List Char)) :
    Option JanRec → ℕ → List JanRec → Option JanRec
  | best, _, [] => best
  | best, maxScore, g :: rest =>
    if count_salts_in_generic g.generic_name ≠ salts.length then
      govLoop salts targetSet best maxScore rest
    else
      let score := matchScore salts (lowerStr g.generic_name)
      if score = salts.length then
        let gset := dosageKeySet (extract_dosages g.generic_name)
        if targetSet ≠ ∅ ∧ gset ≠ ∅ ∧ targetSet ≠ gset then
          govLoop salts targetSet best maxScore rest
        else if maxScore < score then govLoop salts targetSet (some g) score rest
        else govLoop salts targetSet best maxScore rest
      else govLoop salts targetSet best maxScore rest

/-- Embedding of `find_best_gov_match` (`src/main.py` lines 222-271); the
candidate store `db.query(JanAushadhi).all()` is the explicit list `gens`. -/
def find_best_gov_match (salts : List (List Char))
    (brand_dosages : List (ℚ × List Char)) (gens : List JanRec) : Option JanRec :=
  if salts = [] then none
  else govLoop salts (dosageKeySet brand_dosages) none 0 gens

/-- A `medicines` record (`src/main.py` lines 29-35). -/
structure MedRec where
  id : ℕ
  brand_name : List Char
  salt_composition : List Char
  manufacturer : List Char
  mrp : ℚ
deriving DecidableEq, Repr

/-- Filter of the commercial-substitute query (`src/main.py` lines
328-333): same composition text, a different record, cheaper than the
target, and above the price floor of 10. -/
def substPred (target m : MedRec) : Bool :=
  m.salt_composition = target.salt_composition ∧ m.id ≠ target.id ∧
    m.mrp < target.mrp ∧ 10 < m.mrp

/-- First-encountered minimum under a strict Boolean comparison, the
model of `order_by(x.asc()).first()` over an explicit store list. -/
def pickFirstMin {α : Type} (ltb : α → α → Bool) (best : α) : List α → α
  | [] => best
  | x :: xs => pickFirstMin ltb (if ltb x best then x else best) xs

/-- Embedding of the commercial-substitute query of `get_generic_name`
(`src/main.py` lines 328-333): filter by `substPred`, then take the
record with the lowest `mrp`, ties resolved to the first in store order. -/
def find_substitute (target : MedRec) (meds : List MedRec) : Option MedRec :=
  match meds.filter (substPred target) with
  | [] => none
  | m :: rest => some (pickFirstMin (fun a b => a.mrp < b.mrp) m rest)

/-- Single-position matcher for `\((\d+)\s*(?:tabs|tablets|caps|capsules)?\)`
(the pack-size pattern of `get_quantity_label`, `src/main.py` line 86),
on the lower-cased text since the search is case-insensitive.  Returns
the captured digit group. -/
def packParenMatchAt (l : List Char) : Option (List Char) :=
  match l with
  | '(' :: r =>
    let ds := r.takeWhile pyIsDigit
    if ds = [] then none
    else
      let r1 := (r.dropWhile pyIsDigit).dropWhile pyIsSpace
      if ")".data.isPrefixOf r1 then some ds
      else if "tabs)".data.isPrefixOf r1 then some ds
      else if "tablets)".data.isPrefixOf r1 then some ds
      else if "caps)".data.isPrefixOf r1 then some ds
      else if "capsules)".data.isPrefixOf r1 then some ds
      else none
  | _ => none

/-- Fuel-driven `re.search` scanner for the pack-size pattern. -/
def packParenSearchGo : ℕ → List Char → Option (List Char)
  | 0, _ => none
  | fuel + 1, l =>
    match l with
    | [] => none
    | _ :: rest =>
      match packParenMatchAt l with
      | some ds => some ds
      | none => packParenSearchGo fuel rest

/-- Embedding of `re.search(r'\((\d+)\s*(?:tabs|tablets|caps|capsules)?\)', name, re.IGNORECASE)`,
returning the captured count. -/
def packParenSearch (l : List Char) : Option (List Char) :=
  packParenSearchGo (l.length + 1) (lowerStr l)

/-- Single-position matcher for `\b(\d+)s\b` (`src/main.py` line 90),
given the previous character.  A shorter digit run can never rescue a
failed match, so only the greedy run is tried. -/
def packSMatchAt (prev : Option Char) (l : List Char) : Option (List Char) :=
  if (match prev with | none => true | some p => !pyIsWord p) then
    let ds := l.takeWhile pyIsDigit
    if ds = [] then none
    else
      match l.dropWhile pyIsDigit with
      | 's' :: rest => if boundaryAfter rest then some ds else none
      | _ => none
  else none

/-- Fuel-driven `re.search` scanner for `\b(\d+)s\b`. -/
def packSSearchGo : ℕ → Option Char → List Char → Option (List Char)
  | 0, _, _ => none
  | fuel + 1, prev, l =>
    match l with
    | [] => none
    | c :: rest =>
      match packSMatchAt prev l with
      | some ds => some ds
      | none => packSSearchGo fuel (some c) rest

/-- Embedding of `re.search(r'\b(\d+)s\b', name, re.IGNORECASE)`: the
case-insensitive search is run on the lower-cased text (word-character
status and the captured digits are unchanged by lower-casing). -/
def packSSearch (l : List Char) : Option (List Char) :=
  packSSearchGo (l.length + 1) none (lowerStr l)

/-- Embedding of `get_quantity_label` (`src/main.py` lines 68-99). -/
def get_quantity_label (name : List Char) (price : ℚ) : List Char :=
  let nl := lowerStr name
  if containsSub nl "injection".data || containsSub nl " inj".data ||
      containsSub nl "vial".data then "Per Vial".data
  else if ["syrup", "suspension", "liquid", "solution", "drop"].any
      (fun x => containsSub nl x.data) then "Per Bottle".data
  else if ["gel", "cream", "ointment", "tube"].any
      (fun x => containsSub nl x.data) then "Per Tube".data
  else if containsSub nl "sachet".data then "Per Sachet".data
  else
    match packParenSearch name with
    | some ds => "Pack of ".data ++ ds
    | none =>
      match packSSearch name with
      | some ds => "Pack of ".data ++ ds
      | none =>
        if 200 < price then "Per Box/Pack".data
        else if price < 20 then "Per Strip/Tab".data
        else "Per Pack".data

/-- Embedding of Python `round(x, 2)` (bankers' rounding at two decimal
places) on the exact rational model of the float values involved. -/
def pyRound2 (q : ℚ) : ℚ :=
  let x := 100 * q
  let f : ℤ := Int.floor x
  let r := x - (f : ℚ)
  let n : ℤ :=
    if r < 1 / 2 then f
    else if 1 / 2 < r then f + 1
    else if f % 2 = 0 then f else f + 1
  (n : ℚ) / 100

/-- The brand-alias table `BRAND_ALIASES` (`src/main.py` lines 103-109). -/
def BRAND_ALIASES : List (List Char × List Char) :=
  [("tylenol".data, "Dolo".data), ("panadol".data, "Dolo".data),
   ("advil".data, "Brufen".data), ("motrin".data, "Brufen".data),
   ("claritin".data, "Alerta".data)]

/-- Strict lexicographic comparison used to model
`order_by(Medicine.brand_name.asc()).first()` over the store list. -/
def lexLtb (a b : List Char) : Bool :=
  lexLeb a b && !(a = b)

/-- One prefix-or-contains lookup stage: filter, then first record in
ascending `brand_name` order (first encountered on ties). -/
def firstByName (l : List MedRec) : Option MedRec :=
  match l with
  | [] => none
  | m :: rest =>
    some (pickFirstMin (fun a b => lexLtb a.brand_name b.brand_name) m rest)

/-- Brand lookup of `get_generic_name` (`src/main.py` lines 310-322):
alias translation, case-insensitive prefix match ordered by name, then a
case-insensitive contains match as fallback. -/
def lookupBrand (brand_name : List Char) (meds : List MedRec) : Option MedRec :=
  let clean := stripStr (lowerStr brand_name)
  let search_term :=
    match BRAND_ALIASES.find? (fun p => p.1 = clean) with
    | some p => p.2
    | none => brand_name
  let tl := lowerStr search_term
  match firstByName (meds.filter (fun m => tl.isPrefixOf (lowerStr m.brand_name))) with
  | some m => some m
  | none => firstByName (meds.filter (fun m => containsSub (lowerStr m.brand_name) tl))

/-- The `substitute` sub-object of the response (`src/main.py`
lines 362-368). -/
structure SubstOut where
  name : List Char
  price : ℚ
  qty : List Char
  manufacturer : List Char
  savings : ℚ
deriving DecidableEq, Repr

/-- The `gov_match` sub-object of the response (`src/main.py`
lines 379-385). -/
structure GovOut where
  name : List Char
  price : ℚ
  qty : List Char
  savings : ℚ
  dosage_warning : Option (List Char)
deriving DecidableEq, Repr

/-- The found-case response of `get_generic_name` (`src/main.py`
lines 348-359). -/
structure Response where
  found : Bool
  searched_brand : List Char
  brand_price : ℚ
  brand_qty : List Char
  manufacturer : List Char
  generic_name : List Char
  substitute : Option SubstOut
  gov_match : Option GovOut
  alternatives_found : Bool
  message : List Char
deriving DecidableEq, Repr

/-- Result of `get_generic_name`: either the not-found object
(`src/main.py` line 325) or the full response. -/
inductive ResolveResult where
  | notFound (message : List Char) : ResolveResult
  | ok (r : Response) : ResolveResult
deriving DecidableEq, Repr

/-- Embedding of the `/get-generic` endpoint `get_generic_name`
(`src/main.py` lines 306-388) over explicit store lists. -/
def get_generic_name (brand_name : List Char) (meds : List MedRec)
    (gens : List JanRec) : ResolveResult :=
  match lookupBrand brand_name meds with
  | none =>
    ResolveResult.notFound
      ("No brand found matching ".data ++ ['\''] ++ brand_name ++ ['\''])
  | some brand_match =>
    let substitute := find_substitute brand_match meds
    let all_salts := extract_all_salts brand_match.salt_composition
    let clean_salt_name := all_salts.headD brand_match.salt_composition
    let brand_dosages :=
      extract_dosages (brand_match.salt_composition ++ " ".data ++ brand_match.brand_name)
    let gov_match := find_best_gov_match all_salts brand_dosages gens
    ResolveResult.ok
      ⟨true, brand_match.brand_name, brand_match.mrp,
        get_quantity_label brand_match.brand_name brand_match.mrp,
        brand_match.manufacturer, clean_salt_name,
        substitute.map (fun s =>
          ⟨s.brand_name, s.mrp, get_quantity_label s.brand_name s.mrp,
            s.manufacturer, pyRound2 (brand_match.mrp - s.mrp)⟩),
        gov_match.map (fun g =>
          let hm := has_dosage_mismatch brand_match.salt_composition
            brand_match.brand_name g.generic_name
          ⟨g.generic_name, g.price, get_quantity_label g.generic_name g.price,
            pyRound2 (brand_match.mrp - g.price),
            if hm.1 then some hm.2 else none⟩),
        substitute.isSome || gov_match.isSome,
        "No safe alternatives found.".data⟩

/-- Invariant of the matcher loop: any predicate that holds of the
incoming `best_match` and of every candidate that can be newly installed
(one that passed the salt-count gate and was not skipped by the dosage
gate) holds of the loop's result. -/
theorem govLoop_invariant (salts : List (List Char)) (targetSet : Finset (List Char))
    (P : JanRec → Prop)
    (hInstall : ∀ g, count_salts_in_generic g.generic_name = salts.length →
      ¬(targetSet ≠ ∅ ∧ dosageKeySet (extract_dosages g.generic_name) ≠ ∅ ∧
        targetSet ≠ dosageKeySet (extract_dosages g.generic_name)) → P g) :
    ∀ (gens : List JanRec) (best : Option JanRec) (maxScore : ℕ),
      (∀ g, best = some g → P g) →
      ∀ g', govLoop salts targetSet best maxScore gens = some g' → P g' := by
  intro gens
  induction gens with
  | nil =>
    intro best maxScore hbest g' h
    exact hbest g' h
  | cons g rest ih =>
    intro best maxScore hbest g' h
    simp only [govLoop] at h
    by_cases hc : count_salts_in_generic g.generic_name ≠ salts.length
    · rw [if_pos hc] at h
      exact ih best maxScore hbest g' h
    · rw [if_neg hc] at h
      push_neg at hc
      by_cases hs : matchScore salts (lowerStr g.generic_name) = salts.length
      · rw [if_pos hs] at h
        by_cases hg : targetSet ≠ ∅ ∧ dosageKeySet (extract_dosages g.generic_name) ≠ ∅ ∧
            targetSet ≠ dosageKeySet (extract_dosages g.generic_name)
        · rw [if_pos hg] at h
          exact ih best maxScore hbest g' h
        · rw [if_neg hg] at h
          by_cases hm : maxScore < matchScore salts (lowerStr g.generic_name)
          · rw [if_pos hm] at h
            refine ih _ _ ?_ g' h
            intro g'' hg''
            cases hg''
            exact hInstall g hc hg
          · rw [if_neg hm] at h
            exact ih best maxScore hbest g' h
      · rw [if_neg hs] at h
        exact ih best maxScore hbest g' h

/-- C1: for every target whose extracted dosage set is non-empty and every
candidate store, `find_best_gov_match` never returns a generic whose own
extracted dosage set is non-empty and differs, as canonical-key sets, from
the target's; in particular a target with dosage set 650mg never selects a
generic named `Paracetamol 125mg` even when its salt names fully match. -/
theorem find_best_gov_match_dosage_hard_gate
    (salts : List (List Char)) (brand_dosages : List (ℚ × List Char))
    (gens : List JanRec) (g : JanRec)
    (h : find_best_gov_match salts brand_dosages gens = some g)
    (htarget : dosageKeySet brand_dosages ≠ ∅)
    (hgen : dosageKeySet (extract_dosages g.generic_name) ≠ ∅) :
    dosageKeySet (extract_dosages g.generic_name) = dosageKeySet brand_dosages := by
  unfold find_best_gov_match at h
  by_cases hn : salts = []
  · rw [if_pos hn] at h; cases h
  · rw [if_neg hn] at h
    have := govLoop_invariant salts (dosageKeySet brand_dosages)
      (fun g => dosageKeySet (extract_dosages g.generic_name) ≠ ∅ →
        dosageKeySet (extract_dosages g.generic_name) = dosageKeySet brand_dosages)
      (fun g _ hng hne => by
        push_neg at hng
        exact (hng htarget hne).symm)
      gens none 0 (fun g hg => by cases hg) g h
    exact this hgen

/-- Witness for C1: with target dosage set 650mg and a store holding both
a 125mg and a 650mg paracetamol generic, the matcher returns the 650mg
record, whose dosage set equals the target's. -/
theorem find_best_gov_match_dosage_hard_gate_witness :
    dosageKeySet (extract_dosages (JanRec.mk "Paracetamol 650mg".data 12).generic_name) =
      dosageKeySet [((650 : ℚ), "mg".data)] :=
  find_best_gov_match_dosage_hard_gate ["paracetamol".data]
    [((650 : ℚ), "mg".data)]
    [⟨"Paracetamol 125mg".data, 8⟩, ⟨"Paracetamol 650mg".data, 12⟩]
    ⟨"Paracetamol 650mg".data, 12⟩ (by decide) (by decide) (by decide)

/-- C2: for every target salt list and candidate store,
`find_best_gov_match` never returns a generic whose name decomposes
(split on `and`/`+`/`/`, pure-dosage fragments discarded) into a number
of fragments different from the number of target salts. -/
theorem find_best_gov_match_salt_count_gate
    (salts : List (List Char)) (brand_dosages : List (ℚ × List Char))
    (gens : List JanRec) (g : JanRec)
    (h : find_best_gov_match salts brand_dosages gens = some g) :
    count_salts_in_generic g.generic_name = salts.length := by
  unfold find_best_gov_match at h
  by_cases hn : salts = []
  · rw [if_pos hn] at h; cases h
  · rw [if_neg hn] at h
    exact govLoop_invariant salts (dosageKeySet brand_dosages)
      (fun g => count_salts_in_generic g.generic_name = salts.length)
      (fun g hc _ => hc) gens none 0 (fun g hg => by cases hg) g h

/-- Witness for C2: a two-salt target matches a generic whose name has
exactly two salt fragments, and the gate equation holds there. -/
theorem find_best_gov_match_salt_count_gate_witness :
    count_salts_in_generic (JanRec.mk "Paracetamol and Caffeine 500mg".data 20).generic_name =
      ["paracetamol".data, "caffeine".data].length :=
  find_best_gov_match_salt_count_gate ["paracetamol".data, "caffeine".data] []
    [⟨"Paracetamol and Caffeine 500mg".data, 20⟩]
    ⟨"Paracetamol and Caffeine 500mg".data, 20⟩ (by decide)

/-- First-encountered-minimum lemma: the record picked from `best :: l`
belongs to the list, is positioned after records it strictly beats, and
weakly beats every record. -/
theorem pickFirstMin_spec (f : MedRec → ℚ) :
    ∀ (l : List MedRec) (best : MedRec),
      ∃ l1 l2, best :: l = l1 ++ (pickFirstMin (fun a b => f a < f b) best l) :: l2 ∧
        (∀ x ∈ l1, f (pickFirstMin (fun a b => f a < f b) best l) < f x) ∧
        (∀ x ∈ best :: l, f (pickFirstMin (fun a b => f a < f b) best l) ≤ f x) := by
  intro l
  induction l with
  | nil =>
    intro best
    refine ⟨[], [], by simp [pickFirstMin], by simp, ?_⟩
    intro x hx
    simp at hx
    simp [hx, pickFirstMin]
  | cons x xs ih =>
    intro best
    by_cases hlt : f x < f best
    · have hb : pickFirstMin (fun a b => f a < f b) best (x :: xs) =
          pickFirstMin (fun a b => f a < f b) x xs := by
        simp [pickFirstMin, hlt]
      obtain ⟨l1, l2, hsplit, hless, hmin⟩ := ih x
      refine ⟨best :: l1, l2, ?_, ?_, ?_⟩
      · rw [hb]; simpa using congrArg (best :: ·) hsplit
      · intro y hy
        rw [hb]
        rcases List.mem_cons.mp hy with rfl | hy'
        · exact lt_of_le_of_lt (hmin x (List.mem_cons_self x xs)) hlt
        · exact hless y hy'
      · intro y hy
        rw [hb]
        rcases List.mem_cons.mp hy with rfl | hy'
        · exact le_of_lt (lt_of_le_of_lt (hmin x (List.mem_cons_self x xs)) hlt)
        · exact hmin y hy'
    · have hb : pickFirstMin (fun a b => f a < f b) best (x :: xs) =
          pickFirstMin (fun a b => f a < f b) best xs := by
        simp [pickFirstMin, hlt]
      obtain ⟨l1, l2, hsplit, hless, hmin⟩ := ih best
      rw [hb]
      match l1, hsplit with
      | [], hsplit =>
        have hpick : pickFirstMin (fun a b => f a < f b) best xs = best := by
          simpa using (List.cons_eq_cons.mp hsplit).1.symm
        have hl2 : xs = l2 := by
          simpa [hpick] using (List.cons_eq_cons.mp hsplit).2
        refine ⟨[], x :: xs, by simp [hpick], by simp, ?_⟩
        intro y hy
        rcases List.mem_cons.mp hy with rfl | hy'
        · simp [hpick]
        · rcases List.mem_cons.mp hy' with rfl | hy''
          · rw [hpick]; exact le_of_not_lt hlt
          · exact hmin y (by simp [hy''])
      | b :: l1', hsplit =>
        obtain ⟨rfl, htail⟩ := List.cons_eq_cons.mp hsplit
        refine ⟨best :: x :: l1', l2, ?_, ?_, ?_⟩
        · simp only [List.cons_append]
          exact congrArg (best :: ·) (congrArg (x :: ·) htail)
        · intro y hy
          have hbest : f (pickFirstMin (fun a b => f a < f b) best xs) < f best :=
            hless best (List.mem_cons_self best l1')
          rcases List.mem_cons.mp hy with rfl | hy'
          · exact hbest
          · rcases List.mem_cons.mp hy' with rfl | hy''
            · exact lt_of_lt_of_le hbest (le_of_not_lt hlt)
            · exact hless y (by simp [hy''])
        · intro y hy
          rcases List.mem_cons.mp hy with rfl | hy'
          · exact hmin y (List.mem_cons_self y xs)
          · rcases List.mem_cons.mp hy' with rfl | hy''
            · exact le_trans (le_of_lt (hless best (List.mem_cons_self best l1')))
                (le_of_not_lt hlt)
            · exact hmin y (by simp [hy''])


/-- C3: the commercial substitute search returns, among records with the
target's exact composition text, a different id, price strictly below the
target's and strictly above 10, the lowest-priced one (ties to the first
in store order), and returns none exactly when no record qualifies; in
particular a candidate priced at most 10 or at least the target price is
never returned. -/
theorem find_substitute_spec (target : MedRec) (meds : List MedRec) :
    (find_substitute target meds = none ↔ ∀ m ∈ meds, ¬ substPred target m) ∧
    (∀ m, find_substitute target meds = some m →
      m ∈ meds ∧ m.salt_composition = target.salt_composition ∧ m.id ≠ target.id ∧
        m.mrp < target.mrp ∧ 10 < m.mrp ∧
        (∀ m' ∈ meds, substPred target m' → m.mrp ≤ m'.mrp) ∧
        ∃ l1 l2, meds.filter (substPred target) = l1 ++ m :: l2 ∧
          ∀ x ∈ l1, m.mrp < x.mrp) := by
  unfold find_substitute
  rcases hf : meds.filter (substPred target) with _ | ⟨m0, rest⟩
  · constructor
    · simp only [List.filter_eq_nil_iff] at hf
      simpa using hf
    · intro m h
      cases h
  · have hm0 : m0 ∈ meds ∧ substPred target m0 := by
      have : m0 ∈ meds.filter (substPred target) := by
        rw [hf]; exact List.mem_cons_self m0 rest
      simpa using List.mem_filter.mp this
    constructor
    · constructor
      · intro h; cases h
      · intro hall
        exact absurd (hall m0 hm0.1) (by simpa using hm0.2)
    · intro m h
      have hpick := pickFirstMin_spec (fun r => r.mrp) rest m0
      obtain ⟨l1, l2, hsplit, hless, hmin⟩ := hpick
      have hpm : pickFirstMin (fun a b => a.mrp < b.mrp) m0 rest = m := by
        exact Option.some_injective _ h
      rw [hpm] at hsplit hless hmin
      have hmemf : m ∈ meds.filter (substPred target) := by
        rw [hf, hsplit]
        exact List.mem_append.mpr (Or.inr (List.mem_cons_self m l2))
      have hmem := List.mem_filter.mp hmemf
      have hpred : m.salt_composition = target.salt_composition ∧ m.id ≠ target.id ∧
          m.mrp < target.mrp ∧ 10 < m.mrp := by
        have := hmem.2
        simpa [substPred] using this
      refine ⟨hmem.1, hpred.1, hpred.2.1, hpred.2.2.1, hpred.2.2.2, ?_, ?_⟩
      · intro m' hm' hp'
        have : m' ∈ meds.filter (substPred target) := List.mem_filter.mpr ⟨hm', by simpa using hp'⟩
        rw [hf] at this
        exact hmin m' this
      · exact ⟨l1, l2, hsplit, hless⟩

/-- Witness for C3: on a concrete store the search returns the first of
the two cheapest qualifying records; its price is above the floor and
below the target's. -/
theorem find_substitute_spec_witness :
    (10 : ℚ) < (MedRec.mk 3 "C".data "comp".data "m".data 15).mrp ∧
      (MedRec.mk 3 "C".data "comp".data "m".data 15).mrp < 30 := by
  have h := (find_substitute_spec ⟨1, "A".data, "comp".data, "m".data, 30⟩
    [⟨1, "A".data, "comp".data, "m".data, 30⟩, ⟨2, "B".data, "comp".data, "m".data, 9⟩,
     ⟨3, "C".data, "comp".data, "m".data, 15⟩, ⟨4, "D".data, "comp".data, "m".data, 15⟩,
     ⟨5, "E".data, "comp".data, "m".data, 40⟩]).2
    ⟨3, "C".data, "comp".data, "m".data, 15⟩ (by decide)
  exact ⟨h.2.2.2.2.1, h.2.2.2.1⟩

/-- Counterexample to C7: the name `dolo injection syrup` contains
`syrup`, yet the label is `Per Vial`, because the injection/vial keyword
check precedes the syrup check. -/
theorem get_quantity_label_syrup_cex :
    get_quantity_label "dolo injection syrup".data 5 = "Per Vial".data ∧
    containsSub (lowerStr "dolo injection syrup".data) "syrup".data = true ∧
    "Per Vial".data ≠ "Per Bottle".data := by
  refine ⟨by decide, by decide, by decide⟩

/-- C7 (amended): for every price, a name whose lower-cased form contains
`syrup` and contains none of the higher-priority vial keywords
(`injection`, ` inj`, `vial`) is labelled `Per Bottle`, regardless of
price, even above 200. -/
theorem get_quantity_label_syrup (name : List Char) (price : ℚ)
    (hsyr : containsSub (lowerStr name) "syrup".data = true)
    (hinj : containsSub (lowerStr name) "injection".data = false)
    (hinj2 : containsSub (lowerStr name) " inj".data = false)
    (hvial : containsSub (lowerStr name) "vial".data = false) :
    get_quantity_label name price = "Per Bottle".data := by
  simp [get_quantity_label, hsyr, hinj, hinj2, hvial]

/-- Witness for C7 (amended): a syrup name priced above 200 still gets
`Per Bottle`. -/
theorem get_quantity_label_syrup_witness :
    get_quantity_label "benadryl syrup".data 250 = "Per Bottle".data :=
  get_quantity_label_syrup "benadryl syrup".data 250
    (by decide) (by decide) (by decide) (by decide)

unseal Rat.mul Rat.inv in
/-- C8: every extracted strength is converted to milligrams — `mcg`/`µg`
divided by 1000, `g` multiplied by 1000, `mg` unchanged — so `500mcg`
yields 0.5 mg, `1g` yields 1000 mg, and `250mg` yields 250 mg. -/
theorem extract_dosages_spec :
    (∀ (t : List Char) (p : ℚ × List Char), p ∈ extract_dosages t → p.2 = "mg".data) ∧
    extract_dosages "500mcg".data = [((1 : ℚ) / 2, "mg".data)] ∧
    extract_dosages "1g".data = [((1000 : ℚ), "mg".data)] ∧
    extract_dosages "250mg".data = [((250 : ℚ), "mg".data)] := by
  refine ⟨?_, by decide, by decide, by decide⟩
  intro t p hp
  unfold extract_dosages at hp
  obtain ⟨q, _, hconv⟩ := List.mem_map.mp hp
  rw [← hconv]
  unfold convertDosage
  split_ifs <;> rfl

/-- Witness for C8: the universally quantified conjunct applied to a
concrete member of a concrete extraction. -/
theorem extract_dosages_spec_witness :
    (((250 : ℚ), "mg".data) : ℚ × List Char).2 = "mg".data :=
  extract_dosages_spec.1 "250mg".data ((250 : ℚ), "mg".data) (by decide)

/-- C9: whenever the brand lookup succeeds, the resolution result is the
found-case response and its `generic_name` field is the first parsed salt
of the brand's raw composition when the salt list is non-empty, and the
raw composition string unchanged otherwise. -/
theorem get_generic_name_field (inp : List Char) (meds : List MedRec)
    (gens : List JanRec) (bm : MedRec) (h : lookupBrand inp meds = some bm) :
    ∃ r, get_generic_name inp meds gens = ResolveResult.ok r ∧
      r.generic_name = (extract_all_salts bm.salt_composition).headD bm.salt_composition := by
  unfold get_generic_name
  rw [h]
  exact ⟨_, rfl, rfl⟩

/-- Witness for C9: concrete store, found result, and the field equation. -/
theorem get_generic_name_field_witness :
    ∃ r, get_generic_name "Dolo".data
        [⟨1, "Dolo 650".data, "Paracetamol 650mg".data, "Micro Labs".data, 30⟩] [] =
        ResolveResult.ok r ∧
      r.generic_name = (extract_all_salts "Paracetamol 650mg".data).headD
        "Paracetamol 650mg".data :=
  get_generic_name_field "Dolo".data
    [⟨1, "Dolo 650".data, "Paracetamol 650mg".data, "Micro Labs".data, 30⟩] []
    ⟨1, "Dolo 650".data, "Paracetamol 650mg".data, "Micro Labs".data, 30⟩ (by decide)

/-- Rendering that follows the spec sentence behind C6 — distinct
strengths sorted ascending by numeric value — for comparison with the
code's rendering, which sorts the canonical key strings. -/
def sortedKeysByValue (l : List (ℚ × List Char)) : List (List Char) :=
  (insSort (fun a b => a ≤ b) ((l.map Prod.fst).dedup)).map (fun v => ratRepr v ++ "mg".data)

/-- Counterexample to C6: with brand strengths 75 mg and 650 mg the code
sorts the canonical key strings, listing `650.0mg` before `75.0mg`
because `6` precedes `7` as a character, while ascending numeric order
would list 75 before 650. -/
theorem has_dosage_mismatch_order_cex :
    has_dosage_mismatch "aspirin 75mg paracetamol 650mg".data [] "aspirin 100mg".data =
      (true, warnMsg "650.0mg + 75.0mg".data "100.0mg".data) ∧
    joinPlus (sortedKeysByValue
        (extract_dosages ("aspirin 75mg paracetamol 650mg".data ++ " ".data ++ []))) =
      "75.0mg + 650.0mg".data ∧
    warnMsg "650.0mg + 75.0mg".data "100.0mg".data ≠
      warnMsg "75.0mg + 650.0mg".data "100.0mg".data := by
  refine ⟨by decide, by decide, by decide⟩

/-- The canonical-key set is empty exactly when the extracted list is. -/
theorem dosageKeySet_empty_iff (l : List (ℚ × List Char)) :
    dosageKeySet l = ∅ ↔ l = [] := by
  simp [dosageKeySet, dosageKeys]

/-- C6 (amended): when both canonical-key sets are non-empty and differ,
the warning lists each side's distinct strengths sorted ascending as
canonical-key strings (lexicographically), joined by " + ", inside the
consult-your-doctor message; when either set is empty or the sets are
equal, no warning is produced. -/
theorem has_dosage_mismatch_spec (bc bn g : List Char) :
    (dosageKeySet (extract_dosages (bc ++ " ".data ++ bn)) = ∅ ∨
     dosageKeySet (extract_dosages g) = ∅ ∨
     dosageKeySet (extract_dosages (bc ++ " ".data ++ bn)) = dosageKeySet (extract_dosages g) →
      has_dosage_mismatch bc bn g = (false, [])) ∧
    (dosageKeySet (extract_dosages (bc ++ " ".data ++ bn)) ≠ ∅ →
     dosageKeySet (extract_dosages g) ≠ ∅ →
     dosageKeySet (extract_dosages (bc ++ " ".data ++ bn)) ≠ dosageKeySet (extract_dosages g) →
      has_dosage_mismatch bc bn g =
        (true, warnMsg (joinPlus (sortedKeys (extract_dosages (bc ++ " ".data ++ bn))))
                       (joinPlus (sortedKeys (extract_dosages g))))) := by
  constructor
  · intro h
    unfold has_dosage_mismatch
    rcases h with h | h | h
    · rw [if_pos (Or.inl ((dosageKeySet_empty_iff _).mp h))]
    · rw [if_pos (Or.inr ((dosageKeySet_empty_iff _).mp h))]
    · by_cases he : extract_dosages (bc ++ " ".data ++ bn) = [] ∨ extract_dosages g = []
      · rw [if_pos he]
      · rw [if_neg he, if_neg (by simpa using h)]
  · intro h1 h2 h3
    unfold has_dosage_mismatch
    rw [if_neg, if_pos h3]
    rintro (he | he)
    · exact h1 ((dosageKeySet_empty_iff _).mpr he)
    · exact h2 ((dosageKeySet_empty_iff _).mpr he)

/-- Witness for C6 (amended): a concrete 10 mg vs 20 mg mismatch yields
the warning in the stated shape. -/
theorem has_dosage_mismatch_spec_witness :
    has_dosage_mismatch "atorvastatin 10mg".data "Lipi 10".data "atorvastatin 20mg".data =
      (true, warnMsg (joinPlus (sortedKeys (extract_dosages
          ("atorvastatin 10mg".data ++ " ".data ++ "Lipi 10".data))))
        (joinPlus (sortedKeys (extract_dosages "atorvastatin 20mg".data)))) :=
  (has_dosage_mismatch_spec "atorvastatin 10mg".data "Lipi 10".data
    "atorvastatin 20mg".data).2 (by decide) (by decide) (by decide)

/-- Lower-casing a character twice is the same as once. -/
theorem pyToLower_idem (c : Char) : pyToLower (pyToLower c) = pyToLower c := by
  unfold pyToLower
  by_cases h : 65 ≤ c.toNat ∧ c.toNat ≤ 90
  · rw [if_pos h]
    obtain ⟨h1, h2⟩ := h
    generalize c.toNat = n at h1 h2 ⊢
    interval_cases n <;> decide
  · rw [if_neg h, if_neg h]

/-- Lower-casing does not change whitespace classification. -/
theorem pyIsSpace_pyToLower (c : Char) : pyIsSpace (pyToLower c) = pyIsSpace c := by
  unfold pyToLower
  by_cases h : 65 ≤ c.toNat ∧ c.toNat ≤ 90
  · rw [if_pos h]
    obtain ⟨h1, h2⟩ := h
    have hs : pyIsSpace c = false := by
      unfold pyIsSpace
      have : c ≠ ' ' ∧ c ≠ '\t' ∧ c ≠ '\n' ∧ c ≠ '\x0d' ∧ c ≠ '\x0b' ∧ c ≠ '\x0c' := by
        refine ⟨?_, ?_, ?_, ?_, ?_, ?_⟩ <;>
          (intro hc; subst hc; revert h1 h2; decide)
      simp [this.1, this.2.1, this.2.2.1, this.2.2.2.1, this.2.2.2.2.1, this.2.2.2.2.2]
    rw [hs]
    generalize c.toNat = n at h1 h2 ⊢
    interval_cases n <;> decide
  · rw [if_neg h]

/-- A map whose function fixes every member fixes the list. -/
theorem map_eq_self_of {f : Char → Char} :
    ∀ {l : List Char}, (∀ a ∈ l, f a = a) → l.map f = l
  | [], _ => rfl
  | c :: t, h => by
    simp only [List.map_cons, h c (List.mem_cons_self c t)]
    rw [map_eq_self_of (fun a ha => h a (List.mem_cons_of_mem c ha))]

/-- Conversely, a map that fixes the list fixes every member. -/
theorem eq_self_of_map {f : Char → Char} :
    ∀ {l : List Char}, l.map f = l → ∀ a ∈ l, f a = a
  | [], _, a, ha => absurd ha (List.not_mem_nil a)
  | c :: t, h, a, ha => by
    rw [List.map_cons] at h
    obtain ⟨h1, h2⟩ := List.cons_eq_cons.mp h
    rcases List.mem_cons.mp ha with rfl | ha'
    · exact h1
    · exact eq_self_of_map h2 a ha'

/-- Lower-casing a string twice is the same as once. -/
theorem lowerStr_idem (l : List Char) : lowerStr (lowerStr l) = lowerStr l := by
  unfold lowerStr
  apply map_eq_self_of
  intro a ha
  obtain ⟨b, _, rfl⟩ := List.mem_map.mp ha
  exact pyToLower_idem b

/-- Pointwise form of whitespace preservation under lower-casing. -/
theorem comp_pyIsSpace_pyToLower : (pyIsSpace ∘ pyToLower) = pyIsSpace :=
  funext pyIsSpace_pyToLower

/-- Left-stripping commutes with lower-casing. -/
theorem stripL_lowerStr (l : List Char) : stripL (lowerStr l) = lowerStr (stripL l) := by
  unfold stripL lowerStr
  rw [List.dropWhile_map, comp_pyIsSpace_pyToLower]

/-- Right-stripping commutes with lower-casing. -/
theorem stripR_lowerStr (l : List Char) : stripR (lowerStr l) = lowerStr (stripR l) := by
  unfold stripR lowerStr
  rw [← List.map_reverse, List.dropWhile_map, comp_pyIsSpace_pyToLower, ← List.map_reverse]

/-- Stripping commutes with lower-casing. -/
theorem stripStr_lowerStr (l : List Char) : stripStr (lowerStr l) = lowerStr (stripStr l) := by
  unfold stripStr
  rw [stripL_lowerStr, stripR_lowerStr]

/-- Left-stripping is idempotent. -/
theorem stripL_idem (l : List Char) : stripL (stripL l) = stripL l :=
  List.dropWhile_idempotent pyIsSpace l

/-- Right-stripping is idempotent. -/
theorem stripR_idem (l : List Char) : stripR (stripR l) = stripR l := by
  unfold stripR
  rw [List.reverse_reverse, List.dropWhile_idempotent]

/-- Right-stripping yields a prefix of the input. -/
theorem stripR_prefix_self (l : List Char) : stripR l <+: l := by
  unfold stripR
  have h := List.dropWhile_suffix (l := l.reverse) pyIsSpace
  have := List.reverse_prefix.mpr h
  simpa using this

/-- A prefix of a left-stripped string is left-stripped. -/
theorem stripL_eq_self_of_prefix {l' m : List Char} (hp : l' <+: m)
    (hm : stripL m = m) : stripL l' = l' := by
  cases l' with
  | nil => rfl
  | cons c t =>
    obtain ⟨r, hr⟩ := hp
    have hc : pyIsSpace c = false := by
      subst hr
      unfold stripL at hm
      rw [List.cons_append, List.dropWhile_cons] at hm
      by_contra hcc
      rw [if_pos (by simpa using hcc)] at hm
      have := congrArg List.length hm
      have hle := (List.dropWhile_sublist (l := t ++ r) pyIsSpace).length_le
      rw [List.length_cons] at this
      omega
    unfold stripL
    rw [List.dropWhile_cons, if_neg (by simp [hc])]

/-- A stripped string is left-stripped. -/
theorem stripL_stripStr (l : List Char) : stripL (stripStr l) = stripStr l := by
  unfold stripStr
  exact stripL_eq_self_of_prefix (stripR_prefix_self (stripL l)) (stripL_idem l)

/-- A stripped string is right-stripped. -/
theorem stripR_stripStr (l : List Char) : stripR (stripStr l) = stripStr l := by
  unfold stripStr
  exact stripR_idem (stripL l)

/-- Stripping is idempotent. -/
theorem stripStr_idem (l : List Char) : stripStr (stripStr l) = stripStr l := by
  show stripR (stripL (stripStr l)) = stripStr l
  rw [stripL_stripStr, stripR_stripStr]

/-- Removing a trailing salt-form word from a lower-cased, stripped
string leaves it lower-cased and stripped. -/
theorem removeTrailing_preserves (y : List Char)
    (hlow : lowerStr y = y) (hsl : stripL y = y) (hsr : stripR y = y) :
    lowerStr (removeTrailingSaltForm y) = removeTrailingSaltForm y ∧
    stripL (removeTrailingSaltForm y) = removeTrailingSaltForm y ∧
    stripR (removeTrailingSaltForm y) = removeTrailingSaltForm y := by
  unfold removeTrailingSaltForm
  by_cases hc : (y.reverse.dropWhile (fun c => !pyIsSpace c)).takeWhile pyIsSpace ≠ [] ∧
      saltForms.contains (y.reverse.takeWhile (fun c => !pyIsSpace c)).reverse
  · rw [if_pos hc]
    have hsuf : ((y.reverse.dropWhile (fun c => !pyIsSpace c)).dropWhile pyIsSpace) <:+
        y.reverse :=
      (List.dropWhile_suffix pyIsSpace).trans (List.dropWhile_suffix _)
    have hpre : ((y.reverse.dropWhile (fun c => !pyIsSpace c)).dropWhile pyIsSpace).reverse
        <+: y := by
      have := List.reverse_prefix.mpr hsuf
      simpa using this
    refine ⟨?_, stripL_eq_self_of_prefix hpre hsl, ?_⟩
    · apply map_eq_self_of
      intro a ha
      exact eq_self_of_map hlow a (hpre.sublist.mem ha)
    · unfold stripR
      rw [List.reverse_reverse, List.dropWhile_idempotent]
  · rw [if_neg hc]
    exact ⟨hlow, hsl, hsr⟩

/-- C5 (amended): the salt normalizer is idempotent on every input whose
normal form carries no further whitespace-preceded trailing salt-form
word; in general a second application may strip one more salt-form word. -/
theorem normalize_salt_name_conditional_idem (x : List Char)
    (h : removeTrailingSaltForm (normalize_salt_name x) = normalize_salt_name x) :
    normalize_salt_name (normalize_salt_name x) = normalize_salt_name x := by
  have hy_low : lowerStr (stripStr (lowerStr x)) = stripStr (lowerStr x) := by
    rw [← stripStr_lowerStr, lowerStr_idem]
  obtain ⟨hzl, hzsl, hzsr⟩ := removeTrailing_preserves (stripStr (lowerStr x)) hy_low
    (stripL_stripStr (lowerStr x)) (stripR_stripStr (lowerStr x))
  show removeTrailingSaltForm (stripStr (lowerStr (normalize_salt_name x))) =
    normalize_salt_name x
  have e1 : lowerStr (normalize_salt_name x) = normalize_salt_name x := hzl
  have e2 : stripStr (normalize_salt_name x) = normalize_salt_name x := by
    show stripR (stripL (normalize_salt_name x)) = normalize_salt_name x
    have e3 : stripL (normalize_salt_name x) = normalize_salt_name x := hzsl
    rw [e3]
    exact hzsr
  rw [e1, e2]
  exact h

/-- Counterexample to C5: `a sodium chloride` normalizes to `a sodium`,
which normalizes again to `a`, so the normalizer is not idempotent. -/
theorem normalize_salt_name_idem_cex :
    normalize_salt_name (normalize_salt_name "a sodium chloride".data) ≠
      normalize_salt_name "a sodium chloride".data ∧
    normalize_salt_name "a sodium chloride".data = "a sodium".data ∧
    normalize_salt_name (normalize_salt_name "a sodium chloride".data) = "a".data := by
  refine ⟨by decide, by decide, by decide⟩

/-- Witness for C5 (amended): a name with one trailing salt-form word is
a fixed point after one normalization. -/
theorem normalize_salt_name_conditional_idem_witness :
    normalize_salt_name (normalize_salt_name "Amoxicillin  Sodium".data) =
      normalize_salt_name "Amoxicillin  Sodium".data :=
  normalize_salt_name_conditional_idem "Amoxicillin  Sodium".data (by decide)

/-- The substring test decides the infix relation. -/
theorem containsSub_spec : ∀ (l pat : List Char), containsSub l pat = true ↔ pat <:+: l := by
  intro l
  induction l with
  | nil =>
    intro pat
    show (pat.isPrefixOf [] || false) = true ↔ pat <:+: []
    rw [Bool.or_false, List.isPrefixOf_iff_prefix, List.prefix_nil, List.infix_nil]
  | cons c t ih =>
    intro pat
    unfold containsSub
    rw [Bool.or_eq_true, List.isPrefixOf_iff_prefix, ih, List.infix_cons_iff]

/-- Tokens produced by the whitespace splitter are whitespace-free
infixes of the input (stated over the accumulator for the induction). -/
theorem splitWsAux_tokens : ∀ (l acc : List Char),
    (∀ c ∈ acc, pyIsSpace c = false) →
    ∀ tok ∈ splitWsAux l acc,
      tok <:+: acc.reverse ++ l ∧ ∀ c ∈ tok, pyIsSpace c = false := by
  intro l
  induction l with
  | nil =>
    intro acc hacc tok htok
    unfold splitWsAux at htok
    by_cases he : acc.isEmpty
    · rw [if_pos he] at htok
      simp at htok
    · rw [if_neg he] at htok
      simp only [List.mem_singleton] at htok
      subst htok
      exact ⟨by simp, fun c hc => hacc c (by simpa using hc)⟩
  | cons x t ih =>
    intro acc hacc tok htok
    unfold splitWsAux at htok
    by_cases hx : pyIsSpace x
    · rw [if_pos hx] at htok
      have hsub : tok ∈ splitWsAux t [] → tok <:+: acc.reverse ++ x :: t ∧
          ∀ c ∈ tok, pyIsSpace c = false := by
        intro htok'
        obtain ⟨hinf, hws⟩ := ih [] (by simp) tok htok'
        refine ⟨?_, hws⟩
        have h1 : tok <:+: t := by simpa using hinf
        have h2 : t <:+ acc.reverse ++ x :: t := by
          rw [List.append_cons]
          exact List.suffix_append _ t
        exact h1.trans h2.isInfix
      by_cases he : acc.isEmpty
      · rw [if_pos he] at htok
        exact hsub htok
      · rw [if_neg he] at htok
        rcases List.mem_cons.mp htok with rfl | htok'
        · exact ⟨(List.prefix_append _ _).isInfix,
            fun c hc => hacc c (by simpa using hc)⟩
        · exact hsub htok'
    · rw [if_neg hx] at htok
      have hacc' : ∀ c ∈ x :: acc, pyIsSpace c = false := by
        intro c hc
        rcases List.mem_cons.mp hc with rfl | hc'
        · simpa using hx
        · exact hacc c hc'
      obtain ⟨hinf, hws⟩ := ih (x :: acc) hacc' tok htok
      refine ⟨?_, hws⟩
      have he : (x :: acc).reverse ++ t = acc.reverse ++ x :: t := by
        rw [List.reverse_cons, List.append_assoc, List.singleton_append]
      rwa [he] at hinf

/-- Tokens of `str.split()` are whitespace-free infixes of the input. -/
theorem splitWs_tokens (l tok : List Char) (h : tok ∈ splitWs l) :
    tok <:+: l ∧ ∀ c ∈ tok, pyIsSpace c = false := by
  have := splitWsAux_tokens l [] (by simp) tok h
  simpa using this

/-- Normalizing a whitespace-free, already-lower-cased token is the
identity. -/
theorem normalize_eq_self_of (tok : List Char)
    (hws : ∀ c ∈ tok, pyIsSpace c = false)
    (hlow : ∀ c ∈ tok, pyToLower c = c) :
    normalize_salt_name tok = tok := by
  have h1 : lowerStr tok = tok := map_eq_self_of hlow
  have h2 : stripL tok = tok := by
    unfold stripL
    cases tok with
    | nil => rfl
    | cons c t =>
      rw [List.dropWhile_cons, if_neg]
      simp [hws c (List.mem_cons_self c t)]
  have h3 : stripR tok = tok := by
    unfold stripR
    have hrev : tok.reverse.dropWhile pyIsSpace = tok.reverse := by
      cases htr : tok.reverse with
      | nil => rfl
      | cons c t =>
        rw [List.dropWhile_cons, if_neg]
        have : c ∈ tok := by
          have : c ∈ tok.reverse := htr ▸ List.mem_cons_self c t
          simpa using this
        simp [hws c this]
    rw [hrev, List.reverse_reverse]
  have h4 : removeTrailingSaltForm tok = tok := by
    unfold removeTrailingSaltForm
    rw [if_neg]
    intro hcond
    have hdrop : tok.reverse.dropWhile (fun c => !pyIsSpace c) = [] := by
      apply List.dropWhile_eq_nil_iff.mpr
      intro a ha
      simp [hws a (by simpa using ha)]
    rw [hdrop] at hcond
    exact hcond.1 rfl
  unfold normalize_salt_name
  rw [h1]
  show removeTrailingSaltForm (stripR (stripL tok)) = tok
  rw [h2, h3, h4]

/-- C10: the per-token substring branch of the salt scoring never fires
when the whole-name test fails — a salt contained in a normalized
whitespace token of the lower-cased name is contained in the whole name —
so the code's scoring equals the scoring with the whole-name substring
test alone. -/
theorem matchScore_token_branch_redundant :
    (∀ (g s tok : List Char), tok ∈ splitWs (lowerStr g) →
        containsSub (normalize_salt_name tok) s = true →
        containsSub (lowerStr g) s = true) ∧
    (∀ (salts : List (List Char)) (g : List Char),
        matchScore salts (lowerStr g) = matchScoreWholeNameOnly salts (lowerStr g)) := by
  have key : ∀ (g s tok : List Char), tok ∈ splitWs (lowerStr g) →
      containsSub (normalize_salt_name tok) s = true →
      containsSub (lowerStr g) s = true := by
    intro g s tok htok hc
    obtain ⟨hinf, hws⟩ := splitWs_tokens _ _ htok
    have hlowtok : ∀ c ∈ tok, pyToLower c = c := by
      intro c hc'
      have hcg : c ∈ lowerStr g := hinf.sublist.mem hc'
      obtain ⟨b, _, rfl⟩ := List.mem_map.mp hcg
      exact pyToLower_idem b
    rw [normalize_eq_self_of tok hws hlowtok] at hc
    exact (containsSub_spec _ _).mpr
      (((containsSub_spec _ _).mp hc).trans hinf)
  refine ⟨key, ?_⟩
  intro salts g
  unfold matchScore matchScoreWholeNameOnly
  apply List.countP_congr
  intro s _
  constructor
  · intro hcond
    show containsSub (lowerStr g) (normalize_salt_name s) = true
    have hcond' : saltCond (lowerStr g) s = true := hcond
    unfold saltCond at hcond'
    simp only [Bool.or_eq_true] at hcond'
    rcases hcond' with h | h
    · exact h
    · obtain ⟨tok, htokmem, htokc⟩ := List.any_eq_true.mp h
      exact key g (normalize_salt_name s) tok htokmem htokc
  · intro hcond
    show saltCond (lowerStr g) s = true
    unfold saltCond
    rw [Bool.or_eq_true]
    exact Or.inl hcond

/-- Witness for C10: `para` inside the token `paracetamol` is inside the
whole lower-cased name. -/
theorem matchScore_token_branch_redundant_witness :
    containsSub (lowerStr "Paracetamol".data) "para".data = true :=
  matchScore_token_branch_redundant.1 "Paracetamol".data "para".data
    "paracetamol".data (by decide) (by decide)
